import Mathlib

/-!
# Byte-order conversion macros

Shallow embedding of `src/prog/zpp/byte_order_conversion.h`:

    #define htons(A) ((((int16_t)(A) & 0xff00) >> 8) | (((int16_t)(A) & 0x00ff) << 8))
    #define htonl(A) ((((int32_t)(A) & 0xff000000) >> 24) | (((int32_t)(A) & 0x00ff0000) >> 8) |
                      (((int32_t)(A) & 0x0000ff00) << 8) | (((int32_t)(A) & 0x000000ff) << 24))
    #define ntohs htons
    #define ntohl htonl

The macros are C expressions, so their meaning is the meaning of the C operators they
are built from.  Every C value is modelled as a pair of its type and its mathematical
value (an `Int`).  `int` and `unsigned int` are 32 bits wide and signed integers are
two's complement, as on every target of the repository.  The typing rules that decide
the result are part of the model:

* `(int16_t)(A)` has type `int16_t` and is promoted to `int` by every operator;
* a hexadecimal constant has type `int` when it fits and `unsigned int` otherwise, so
  `0xff000000` is an `unsigned int` while the other masks are `int`;
* `&` and `|` bring both operands to a common type (`unsigned int` when either operand
  is one) and work on the 32-bit representation;
* `>>` and `<<` have the type of the promoted left operand.

Two evaluators are given.  `htons`/`htonl` compute the value a two's-complement
implementation produces (a left shift of an `int` keeps the low 32 bits).
`htonsChecked`/`htonlChecked` additionally check the precondition C++, the language of
the repository, puts on a left shift of an `int`: the operand is non-negative and the
shifted value is representable in `unsigned int`; they return `none` when it fails.
-/

namespace ByteOrder

/-- The integer types that occur while the macros are evaluated. -/
inductive CType where
  | int16
  | int
  | uint
deriving DecidableEq, Repr

/-- A typed C integer value. -/
structure CVal where
  ty : CType
  val : Int
deriving DecidableEq, Repr

/-- Largest value of `int`. -/
def INT_MAX : Int := 2147483647

/-- Largest value of `unsigned int`. -/
def UINT_MAX : Int := 4294967295

/-- Reduction of a mathematical integer to the range of `int16_t`. -/
def wrapInt16 (v : Int) : Int := (v + 32768) % 65536 - 32768

/-- Reduction of a mathematical integer to the range of `int` (`int32_t`). -/
def wrapInt32 (v : Int) : Int := (v + 2147483648) % 4294967296 - 2147483648

/-- Reduction of a mathematical integer to the range of `unsigned int`. -/
def wrapUInt32 (v : Int) : Int := v % 4294967296

/-- Conversion of a value to a given type. -/
def convert (t : CType) (v : Int) : Int :=
  match t with
  | .int16 => wrapInt16 v
  | .int => wrapInt32 v
  | .uint => wrapUInt32 v

/-- The cast `(int16_t)(A)`, where `A` is the value of the macro argument. -/
def castInt16 (A : Int) : CVal := ⟨.int16, wrapInt16 A⟩

/-- The cast `(int32_t)(A)`, where `A` is the value of the macro argument. -/
def castInt32 (A : Int) : CVal := ⟨.int, wrapInt32 A⟩

/-- A hexadecimal constant: `int` when the value fits, `unsigned int` otherwise (no
constant of the macros exceeds the range of `unsigned int`). -/
def hexLit (n : Nat) : CVal :=
  if (n : Int) ≤ INT_MAX then ⟨.int, n⟩ else ⟨.uint, n⟩

/-- Integer promotion: an `int16_t` operand becomes an `int` of the same value. -/
def promote (v : CVal) : CVal :=
  match v.ty with
  | .int16 => ⟨.int, v.val⟩
  | _ => v

/-- Common type of two promoted operands (usual arithmetic conversions). -/
def commonType (a b : CType) : CType :=
  if a = .uint ∨ b = .uint then .uint else .int

/-- The 32-bit two's-complement representation of a value. -/
def bits (v : Int) : Nat := (v % 4294967296).toNat

/-- The C operator `&`. -/
def band (a b : CVal) : CVal :=
  let t := commonType (promote a).ty (promote b).ty
  ⟨t, convert t ((bits (convert t a.val) &&& bits (convert t b.val) : Nat) : Int)⟩

/-- The C operator `|`. -/
def bor (a b : CVal) : CVal :=
  let t := commonType (promote a).ty (promote b).ty
  ⟨t, convert t ((bits (convert t a.val) ||| bits (convert t b.val) : Nat) : Int)⟩

/-- The C operator `>>` by a constant `k` (arithmetic shift on a signed operand). -/
def shr (a : CVal) (k : Nat) : CVal :=
  let p := promote a
  ⟨p.ty, p.val / 2 ^ k⟩

/-- The C operator `<<` by a constant `k`, keeping the low 32 bits of the result. -/
def shl (a : CVal) (k : Nat) : CVal :=
  let p := promote a
  ⟨p.ty, convert p.ty (p.val * 2 ^ k)⟩

/-- The operator `<<` by a constant `k` with the precondition C++ puts on a signed left
operand: the operand is non-negative and the shifted value is representable in
`unsigned int`; the result is that value converted to `int`. -/
def shlChecked (a : CVal) (k : Nat) : Option CVal :=
  let p := promote a
  match p.ty with
  | .uint => if k < 32 then some ⟨.uint, wrapUInt32 (p.val * 2 ^ k)⟩ else none
  | _ =>
    if k < 32 ∧ 0 ≤ p.val ∧ p.val * 2 ^ k ≤ UINT_MAX then
      some ⟨p.ty, wrapInt32 (p.val * 2 ^ k)⟩
    else none

/-- The C operator `>>` by a constant `k` with the precondition on the shift count. -/
def shrChecked (a : CVal) (k : Nat) : Option CVal :=
  if k < 32 then some (shr a k) else none

/-- The C operator `==` (usual arithmetic conversions, then comparison). -/
def ceq (a b : CVal) : Bool :=
  let t := commonType (promote a).ty (promote b).ty
  decide (convert t a.val = convert t b.val)

/-- The macro `htons(A)`. -/
def htons (A : Int) : CVal :=
  bor (shr (band (castInt16 A) (hexLit 0xff00)) 8)
      (shl (band (castInt16 A) (hexLit 0x00ff)) 8)

/-- The macro `htonl(A)`. -/
def htonl (A : Int) : CVal :=
  bor (bor (bor (shr (band (castInt32 A) (hexLit 0xff000000)) 24)
                (shr (band (castInt32 A) (hexLit 0x00ff0000)) 8))
           (shl (band (castInt32 A) (hexLit 0x0000ff00)) 8))
      (shl (band (castInt32 A) (hexLit 0x000000ff)) 24)

/-- The macro `ntohs`, defined as `htons`. -/
def ntohs : Int → CVal := htons

/-- The macro `ntohl`, defined as `htonl`. -/
def ntohl : Int → CVal := htonl

/-- The macro `htons(A)` evaluated with checked shifts. -/
def htonsChecked (A : Int) : Option CVal := do
  let hi ← shrChecked (band (castInt16 A) (hexLit 0xff00)) 8
  let lo ← shlChecked (band (castInt16 A) (hexLit 0x00ff)) 8
  pure (bor hi lo)

/-- The macro `htonl(A)` evaluated with checked shifts. -/
def htonlChecked (A : Int) : Option CVal := do
  let b3 ← shrChecked (band (castInt32 A) (hexLit 0xff000000)) 24
  let b2 ← shrChecked (band (castInt32 A) (hexLit 0x00ff0000)) 8
  let b1 ← shlChecked (band (castInt32 A) (hexLit 0x0000ff00)) 8
  let b0 ← shlChecked (band (castInt32 A) (hexLit 0x000000ff)) 24
  pure (bor (bor (bor b3 b2) b1) b0)

/-! ## Bit masks on the representation -/

theorem and_shifted_byte (n k : Nat) : n &&& (255 <<< k) = ((n >>> k) &&& 255) <<< k := by
  apply Nat.eq_of_testBit_eq
  intro i
  have h255 : (255 : Nat) = 2 ^ 8 - 1 := by norm_num
  rw [h255]
  simp only [Nat.testBit_and, Nat.testBit_shiftLeft, Nat.testBit_shiftRight,
    Nat.testBit_two_pow_sub_one]
  by_cases h : k ≤ i
  · have : k + (i - k) = i := by omega
    simp [h, this]
  · simp [h]

theorem and_ff (n : Nat) : n &&& 0xff = n % 256 := by
  have h := Nat.and_pow_two_sub_one_eq_mod n 8
  norm_num at h
  exact h

theorem and_ff00 (n : Nat) : n &&& 0xff00 = n / 256 % 256 * 256 := by
  have h : (0xff00 : Nat) = 255 <<< 8 := by decide
  rw [h, and_shifted_byte, and_ff, Nat.shiftRight_eq_div_pow, Nat.shiftLeft_eq]

theorem and_ff0000 (n : Nat) : n &&& 0xff0000 = n / 65536 % 256 * 65536 := by
  have h : (0xff0000 : Nat) = 255 <<< 16 := by decide
  rw [h, and_shifted_byte, and_ff, Nat.shiftRight_eq_div_pow, Nat.shiftLeft_eq]

theorem and_ff000000 (n : Nat) : n &&& 0xff000000 = n / 16777216 % 256 * 16777216 := by
  have h : (0xff000000 : Nat) = 255 <<< 24 := by decide
  rw [h, and_shifted_byte, and_ff, Nat.shiftRight_eq_div_pow, Nat.shiftLeft_eq]

theorem or_shifted (a b k : Nat) (hb : b < 2 ^ k) : b ||| a * 2 ^ k = a * 2 ^ k + b := by
  rw [Nat.or_comm, Nat.mul_comm a, Nat.mul_add_lt_is_or hb]

/-! ## Representations of converted values -/

theorem bits_wrapInt32 (v : Int) : bits (wrapInt32 v) = bits v := by
  unfold bits wrapInt32
  congr 1
  omega

theorem bits_wrapUInt32 (v : Int) : bits (wrapUInt32 v) = bits v := by
  unfold bits wrapUInt32
  congr 1
  omega

theorem bits_cast (v : Int) : (bits v : Int) = v % 4294967296 := by
  unfold bits
  omega

theorem bits_lit (n : Nat) (h : n < 4294967296) : bits (n : Int) = n := by
  unfold bits
  omega

theorem bits_wrapInt32_cast (A : Int) : (bits (wrapInt32 A) : Int) = A % 4294967296 := by
  rw [bits_wrapInt32, bits_cast]

theorem byte0_of_bits (A : Int) (n : Nat) (hn : (n : Int) = A % 4294967296) :
    ((n % 256 : Nat) : Int) = A % 256 := by
  omega

theorem byte1_of_bits (A : Int) (n : Nat) (hn : (n : Int) = A % 4294967296) :
    ((n / 256 % 256 : Nat) : Int) = A / 256 % 256 := by
  omega

theorem byte2_of_bits (A : Int) (n : Nat) (hn : (n : Int) = A % 4294967296) :
    ((n / 65536 % 256 : Nat) : Int) = A / 65536 % 256 := by
  omega

theorem byte3_of_bits (A : Int) (n : Nat) (hn : (n : Int) = A % 4294967296) :
    ((n / 16777216 % 256 : Nat) : Int) = A / 16777216 % 256 := by
  omega

theorem byte_range (A d : Int) : 0 ≤ A / d % 256 ∧ A / d % 256 < 256 := by
  omega

theorem bytes_recompose (x : Int) :
    x % 4294967296
      = x % 256 + x / 256 % 256 * 256 + x / 65536 % 256 * 65536
        + x / 16777216 % 256 * 16777216 := by
  omega

/-! ## The operators on typed values -/

theorem band_int (s : CType) (hs : s ≠ .uint) (a b : Int) :
    band ⟨s, a⟩ ⟨.int, b⟩ = ⟨.int, wrapInt32 ((bits a &&& bits b : Nat) : Int)⟩ := by
  cases s <;> simp_all [band, promote, commonType, convert, bits_wrapInt32]

theorem band_uint (s : CType) (a b : Int) :
    band ⟨s, a⟩ ⟨.uint, b⟩ = ⟨.uint, wrapUInt32 ((bits a &&& bits b : Nat) : Int)⟩ := by
  cases s <;> simp [band, promote, commonType, convert, bits_wrapUInt32]

theorem bor_int (a b : Int) :
    bor ⟨.int, a⟩ ⟨.int, b⟩ = ⟨.int, wrapInt32 ((bits a ||| bits b : Nat) : Int)⟩ := by
  simp [bor, promote, commonType, convert, bits_wrapInt32]

theorem bor_uint (t : CType) (a b : Int) :
    bor ⟨.uint, a⟩ ⟨t, b⟩ = ⟨.uint, wrapUInt32 ((bits a ||| bits b : Nat) : Int)⟩ := by
  cases t <;> simp [bor, promote, commonType, convert, bits_wrapUInt32]

theorem shr_int (a : Int) (k : Nat) : shr ⟨.int, a⟩ k = ⟨.int, a / 2 ^ k⟩ := rfl

theorem shr_uint (a : Int) (k : Nat) : shr ⟨.uint, a⟩ k = ⟨.uint, a / 2 ^ k⟩ := rfl

theorem shl_int (a : Int) (k : Nat) : shl ⟨.int, a⟩ k = ⟨.int, wrapInt32 (a * 2 ^ k)⟩ := rfl

theorem shlChecked_int (v : Int) (k : Nat) :
    shlChecked ⟨.int, v⟩ k
      = if k < 32 ∧ 0 ≤ v ∧ v * 2 ^ k ≤ UINT_MAX then some ⟨.int, wrapInt32 (v * 2 ^ k)⟩
        else none := rfl

theorem hexLit_ff : hexLit 0x00ff = ⟨.int, 255⟩ := by decide

theorem hexLit_ff00 : hexLit 0xff00 = ⟨.int, 65280⟩ := by decide

theorem hexLit_ff0000 : hexLit 0x00ff0000 = ⟨.int, 16711680⟩ := by decide

theorem hexLit_ff000000 : hexLit 0xff000000 = ⟨.uint, 4278190080⟩ := by decide

/-! ## The masked operands of the two macros -/

theorem band16_hi (A : Int) :
    band (castInt16 A) (hexLit 0xff00) = ⟨.int, A / 256 % 256 * 256⟩ := by
  rw [hexLit_ff00, castInt16, band_int _ (by decide)]
  have h : bits (65280 : Int) = 65280 := bits_lit 65280 (by decide)
  rw [h, and_ff00]
  refine congrArg (CVal.mk CType.int) ?_
  have hb := bits_cast (wrapInt16 A)
  simp only [wrapInt32, wrapInt16] at hb ⊢
  omega

theorem band16_lo (A : Int) :
    band (castInt16 A) (hexLit 0x00ff) = ⟨.int, A % 256⟩ := by
  rw [hexLit_ff, castInt16, band_int _ (by decide)]
  have h : bits (255 : Int) = 255 := bits_lit 255 (by decide)
  rw [h, and_ff]
  refine congrArg (CVal.mk CType.int) ?_
  have hb := bits_cast (wrapInt16 A)
  simp only [wrapInt32, wrapInt16] at hb ⊢
  omega

theorem band32_b3 (A : Int) :
    band (castInt32 A) (hexLit 0xff000000) = ⟨.uint, A / 16777216 % 256 * 16777216⟩ := by
  rw [hexLit_ff000000, castInt32, band_uint]
  have h : bits (4278190080 : Int) = 4278190080 := bits_lit 4278190080 (by decide)
  rw [h, and_ff000000]
  refine congrArg (CVal.mk CType.uint) ?_
  rw [Nat.cast_mul, byte3_of_bits A _ (bits_wrapInt32_cast A)]
  have hr := byte_range A 16777216
  simp only [wrapUInt32, Nat.cast_ofNat]
  omega

theorem band32_b2 (A : Int) :
    band (castInt32 A) (hexLit 0x00ff0000) = ⟨.int, A / 65536 % 256 * 65536⟩ := by
  rw [hexLit_ff0000, castInt32, band_int _ (by decide)]
  have h : bits (16711680 : Int) = 16711680 := bits_lit 16711680 (by decide)
  rw [h, and_ff0000]
  refine congrArg (CVal.mk CType.int) ?_
  rw [Nat.cast_mul, byte2_of_bits A _ (bits_wrapInt32_cast A)]
  have hr := byte_range A 65536
  simp only [wrapInt32, Nat.cast_ofNat]
  omega

theorem band32_b1 (A : Int) :
    band (castInt32 A) (hexLit 0x0000ff00) = ⟨.int, A / 256 % 256 * 256⟩ := by
  rw [hexLit_ff00, castInt32, band_int _ (by decide)]
  have h : bits (65280 : Int) = 65280 := bits_lit 65280 (by decide)
  rw [h, and_ff00]
  refine congrArg (CVal.mk CType.int) ?_
  rw [Nat.cast_mul, byte1_of_bits A _ (bits_wrapInt32_cast A)]
  have hr := byte_range A 256
  simp only [wrapInt32, Nat.cast_ofNat]
  omega

theorem band32_b0 (A : Int) :
    band (castInt32 A) (hexLit 0x000000ff) = ⟨.int, A % 256⟩ := by
  rw [hexLit_ff, castInt32, band_int _ (by decide)]
  have h : bits (255 : Int) = 255 := bits_lit 255 (by decide)
  rw [h, and_ff]
  refine congrArg (CVal.mk CType.int) ?_
  rw [byte0_of_bits A _ (bits_wrapInt32_cast A)]
  have hr : 0 ≤ A % 256 ∧ A % 256 < 256 := by omega
  simp only [wrapInt32]
  omega

/-! ## Closed forms of the macros -/

theorem htons_eq (A : Int) :
    htons A = ⟨.int, A / 256 % 256 + A % 256 * 256⟩ := by
  unfold htons
  rw [band16_hi, band16_lo, shr_int, shl_int, bor_int]
  refine congrArg (CVal.mk CType.int) ?_
  have hr := byte_range A 256
  have h1 : bits (A / 256 % 256 * 256 / 2 ^ 8) = (A / 256 % 256).toNat := by
    unfold bits; omega
  have h2 : bits (wrapInt32 (A % 256 * 2 ^ 8)) = (A % 256).toNat * 2 ^ 8 := by
    unfold bits wrapInt32; omega
  rw [h1, h2, or_shifted _ _ _ (by omega)]
  simp only [wrapInt32]
  omega

theorem bor_bytes (x3 x2 x1 x0 : Int)
    (h3 : 0 ≤ x3 ∧ x3 < 256) (h2 : 0 ≤ x2 ∧ x2 < 256)
    (h1 : 0 ≤ x1 ∧ x1 < 256) (h0 : 0 ≤ x0 ∧ x0 < 256) :
    bor (bor (bor ⟨.uint, x3⟩ ⟨.int, x2 * 256⟩) ⟨.int, x1 * 65536⟩)
        ⟨.int, wrapInt32 (x0 * 16777216)⟩
      = ⟨.uint, x3 + x2 * 256 + x1 * 65536 + x0 * 16777216⟩ := by
  obtain ⟨h3a, h3b⟩ := h3
  obtain ⟨h2a, h2b⟩ := h2
  obtain ⟨h1a, h1b⟩ := h1
  obtain ⟨h0a, h0b⟩ := h0
  lift x3 to Nat using h3a
  lift x2 to Nat using h2a
  lift x1 to Nat using h1a
  lift x0 to Nat using h0a
  have e3 : bits (x3 : Int) = x3 := by unfold bits; omega
  have e2 : bits ((x2 : Int) * 256) = x2 * 2 ^ 8 := by unfold bits; omega
  have e1 : bits ((x1 : Int) * 65536) = x1 * 2 ^ 16 := by unfold bits; omega
  have e0 : bits (wrapInt32 ((x0 : Int) * 16777216)) = x0 * 2 ^ 24 := by
    unfold bits wrapInt32; omega
  have e32 : bits (wrapUInt32 ((x2 * 2 ^ 8 + x3 : Nat) : Int)) = x2 * 2 ^ 8 + x3 := by
    unfold bits wrapUInt32; omega
  have e321 : bits (wrapUInt32 ((x1 * 2 ^ 16 + (x2 * 2 ^ 8 + x3) : Nat) : Int))
      = x1 * 2 ^ 16 + (x2 * 2 ^ 8 + x3) := by
    unfold bits wrapUInt32; omega
  rw [bor_uint, e3, e2, or_shifted _ _ _ (by omega), bor_uint, e32, e1,
    or_shifted _ _ _ (by omega), bor_uint, e321, e0, or_shifted _ _ _ (by omega)]
  refine congrArg (CVal.mk CType.uint) ?_
  unfold wrapUInt32
  omega

theorem htonl_eq (A : Int) :
    htonl A = ⟨.uint, A / 16777216 % 256 + A / 65536 % 256 * 256
                        + A / 256 % 256 * 65536 + A % 256 * 16777216⟩ := by
  unfold htonl
  rw [band32_b3, band32_b2, band32_b1, band32_b0, shr_uint, shr_int, shl_int, shl_int]
  have h3 := byte_range A 16777216
  have h2 := byte_range A 65536
  have h1 := byte_range A 256
  have e3 : A / 16777216 % 256 * 16777216 / 2 ^ 24 = A / 16777216 % 256 := by omega
  have e2 : A / 65536 % 256 * 65536 / 2 ^ 8 = A / 65536 % 256 * 256 := by omega
  have e1 : wrapInt32 (A / 256 % 256 * 256 * 2 ^ 8) = A / 256 % 256 * 65536 := by
    unfold wrapInt32; omega
  have e0 : A % 256 * 2 ^ 24 = A % 256 * 16777216 := by omega
  rw [e3, e2, e1, e0]
  exact bor_bytes _ _ _ _ h3 h2 h1 (by omega)

theorem htons_htons_val (x : Int) : htons (htons x).val = ⟨.int, x % 65536⟩ := by
  rw [htons_eq x, htons_eq]
  refine congrArg (CVal.mk CType.int) ?_
  have hx : x % 65536 = x % 256 + x / 256 % 256 * 256 := by omega
  rw [hx]
  have h1 := byte_range x 256
  have h0 : 0 ≤ x % 256 ∧ x % 256 < 256 := by omega
  generalize x / 256 % 256 = b1 at h1 ⊢
  generalize x % 256 = b0 at h0 ⊢
  simp only
  omega

theorem htonl_htonl_val (x : Int) : htonl (htonl x).val = ⟨.uint, x % 4294967296⟩ := by
  rw [htonl_eq x, htonl_eq, bytes_recompose x]
  refine congrArg (CVal.mk CType.uint) ?_
  have h3 := byte_range x 16777216
  have h2 := byte_range x 65536
  have h1 := byte_range x 256
  have h0 : 0 ≤ x % 256 ∧ x % 256 < 256 := by omega
  generalize x / 16777216 % 256 = b3 at h3 ⊢
  generalize x / 65536 % 256 = b2 at h2 ⊢
  generalize x / 256 % 256 = b1 at h1 ⊢
  generalize x % 256 = b0 at h0 ⊢
  simp only
  omega

/-! ## The checked evaluators -/

theorem htonsChecked_eq (A : Int) : htonsChecked A = some (htons A) := by
  have hr : 0 ≤ A % 256 ∧ A % 256 < 256 := by omega
  have hc : (8 < 32 ∧ 0 ≤ A % 256 ∧ A % 256 * 2 ^ 8 ≤ UINT_MAX) := by
    unfold UINT_MAX; omega
  simp only [htonsChecked, htons, shrChecked, band16_lo, shlChecked_int, shl_int, if_pos hc]
  rfl

theorem htonlChecked_eq (A : Int) : htonlChecked A = some (htonl A) := by
  have hr : 0 ≤ A % 256 ∧ A % 256 < 256 := by omega
  have hr1 := byte_range A 256
  have hc1 : (8 < 32 ∧ 0 ≤ A / 256 % 256 * 256 ∧ A / 256 % 256 * 256 * 2 ^ 8 ≤ UINT_MAX) := by
    unfold UINT_MAX; omega
  have hc0 : (24 < 32 ∧ 0 ≤ A % 256 ∧ A % 256 * 2 ^ 24 ≤ UINT_MAX) := by
    unfold UINT_MAX; omega
  simp only [htonlChecked, htonl, shrChecked, band32_b1, band32_b0, shlChecked_int, shl_int,
    if_pos hc1, if_pos hc0]
  rfl

/-! ## Values of the macros in terms of the bytes of the argument -/

theorem htons_val_nat (x : Int) :
    (htons x).val = ((bits x / 256 % 256 + bits x % 256 * 256 : Nat) : Int) := by
  rw [htons_eq]
  simp only [Nat.cast_add, Nat.cast_mul, Nat.cast_ofNat,
    byte0_of_bits x _ (bits_cast x), byte1_of_bits x _ (bits_cast x)]

theorem htonl_val_nat (x : Int) :
    (htonl x).val = ((bits x / 16777216 % 256 + bits x / 65536 % 256 * 256
      + bits x / 256 % 256 * 65536 + bits x % 256 * 16777216 : Nat) : Int) := by
  rw [htonl_eq]
  simp only [Nat.cast_add, Nat.cast_mul, Nat.cast_ofNat,
    byte0_of_bits x _ (bits_cast x), byte1_of_bits x _ (bits_cast x),
    byte2_of_bits x _ (bits_cast x), byte3_of_bits x _ (bits_cast x)]

theorem bits_two_bytes (c1 c0 : Nat) (h1 : c1 < 256) (h0 : c0 < 256) :
    bits ((c1 + c0 * 256 : Nat) : Int) = c1 + c0 * 256 :=
  bits_lit _ (by omega)

theorem bits_four_bytes (c3 c2 c1 c0 : Nat)
    (h3 : c3 < 256) (h2 : c2 < 256) (h1 : c1 < 256) (h0 : c0 < 256) :
    bits ((c3 + c2 * 256 + c1 * 65536 + c0 * 16777216 : Nat) : Int)
      = c3 + c2 * 256 + c1 * 65536 + c0 * 16777216 :=
  bits_lit _ (by omega)

/-! ## The claims -/

/-- C1, as stated, fails at `x = -1`: `htons(htons(-1))` is the `int` 65535, not -1, and
the C comparison `htons(htons(x)) == x` with the `int16_t` value -1 is false. -/
theorem htons_twice_neg_one :
    ((-32768 : Int) ≤ -1 ∧ (-1 : Int) ≤ 32767) ∧
    htons (-1) = ⟨.int, 65535⟩ ∧
    htons (htons (-1)).val = ⟨.int, 65535⟩ ∧
    (htons (htons (-1)).val).val ≠ -1 ∧
    ceq (htons (htons (-1)).val) ⟨.int16, -1⟩ = false := by
  decide

/-- C1 (amended): for every 16-bit integer `x`, `htons(htons(x))` is the `int` of value
`x mod 2^16`, the unsigned reading of the 16-bit pattern of `x`.  It is `x` itself when
`x` is non-negative and `x + 65536` when `x` is negative, and converting it back to
`int16_t` gives `x`. -/
theorem htons_twice (x : Int) (hlo : -32768 ≤ x) (hhi : x ≤ 32767) :
    htons (htons x).val = ⟨.int, x % 65536⟩ ∧
    (0 ≤ x → htons (htons x).val = ⟨.int, x⟩) ∧
    (x < 0 → htons (htons x).val = ⟨.int, x + 65536⟩) ∧
    castInt16 (htons (htons x).val).val = ⟨.int16, x⟩ := by
  rw [htons_htons_val]
  refine ⟨rfl, ?_, ?_, ?_⟩
  · intro h
    refine congrArg (CVal.mk CType.int) ?_
    omega
  · intro h
    refine congrArg (CVal.mk CType.int) ?_
    omega
  · refine congrArg (CVal.mk CType.int16) ?_
    simp only [wrapInt16]
    omega

/-- Witness for C1 (amended) at the negative input `x = -2`. -/
theorem htons_twice_witness :
    ((-32768 : Int) ≤ -2 ∧ (-2 : Int) ≤ 32767) ∧
    htons (htons (-2)).val = ⟨.int, (-2) % 65536⟩ ∧
    ((0 : Int) ≤ -2 → htons (htons (-2)).val = ⟨.int, -2⟩) ∧
    ((-2 : Int) < 0 → htons (htons (-2)).val = ⟨.int, -2 + 65536⟩) ∧
    castInt16 (htons (htons (-2)).val).val = ⟨.int16, -2⟩ :=
  ⟨by decide, htons_twice (-2) (by decide) (by decide)⟩

/-- C2: for every 32-bit integer `x`, negative values included, the C comparison
`htonl(htonl(x)) == x` holds, whether `x` is an `int32_t` or an `unsigned int` value.  The
value of `htonl(htonl(x))` is the `unsigned int` `x mod 2^32`, that is the 32-bit pattern
of `x`, which is `x` itself when `x` is non-negative, and converting it back to `int32_t`
gives an `int32_t` argument `x` back. -/
theorem htonl_twice (x : Int) (hlo : -2147483648 ≤ x) (hhi : x ≤ 4294967295) :
    htonl (htonl x).val = ⟨.uint, x % 4294967296⟩ ∧
    (x ≤ INT_MAX → ceq (htonl (htonl x).val) ⟨.int, x⟩ = true) ∧
    (x ≤ INT_MAX → castInt32 (htonl (htonl x).val).val = ⟨.int, x⟩) ∧
    (0 ≤ x → ceq (htonl (htonl x).val) ⟨.uint, x⟩ = true) ∧
    (0 ≤ x → htonl (htonl x).val = ⟨.uint, x⟩) := by
  rw [htonl_htonl_val]
  refine ⟨rfl, ?_, ?_, ?_, ?_⟩
  · intro _
    simp only [ceq, promote, commonType, convert, wrapUInt32]
    simp
  · intro h
    refine congrArg (CVal.mk CType.int) ?_
    simp only [wrapInt32, INT_MAX] at h ⊢
    omega
  · intro _
    simp only [ceq, promote, commonType, convert, wrapUInt32]
    simp
  · intro h
    refine congrArg (CVal.mk CType.uint) ?_
    omega

/-- Witness for C2 at the negative input `x = -2`. -/
theorem htonl_twice_witness :
    ((-2147483648 : Int) ≤ -2 ∧ (-2 : Int) ≤ 4294967295) ∧
    htonl (htonl (-2)).val = ⟨.uint, (-2) % 4294967296⟩ ∧
    ((-2 : Int) ≤ INT_MAX → ceq (htonl (htonl (-2)).val) ⟨.int, -2⟩ = true) ∧
    ((-2 : Int) ≤ INT_MAX → castInt32 (htonl (htonl (-2)).val).val = ⟨.int, -2⟩) ∧
    ((0 : Int) ≤ -2 → ceq (htonl (htonl (-2)).val) ⟨.uint, -2⟩ = true) ∧
    ((0 : Int) ≤ -2 → htonl (htonl (-2)).val = ⟨.uint, -2⟩) :=
  ⟨by decide, htonl_twice (-2) (by decide) (by decide)⟩

/-- C3: for every argument `x`, `htonl(x)` is an `unsigned int` whose value is its own
32-bit pattern (nothing is set above bit 31), and that pattern is the pattern of `x` with
the four bytes reversed: bits 0-7 are bits 24-31 of `x`, bits 8-15 are bits 16-23 of `x`,
bits 16-23 are bits 8-15 of `x`, and bits 24-31 are bits 0-7 of `x`. -/
theorem htonl_reverses_bytes (x : Int) :
    (htonl x).ty = .uint ∧
    (htonl x).val = (bits (htonl x).val : Int) ∧
    bits (htonl x).val % 256 = bits x / 16777216 % 256 ∧
    bits (htonl x).val / 256 % 256 = bits x / 65536 % 256 ∧
    bits (htonl x).val / 65536 % 256 = bits x / 256 % 256 ∧
    bits (htonl x).val / 16777216 % 256 = bits x % 256 := by
  have hty : (htonl x).ty = .uint := by rw [htonl_eq]
  have h3 : bits x / 16777216 % 256 < 256 := Nat.mod_lt _ (by decide)
  have h2 : bits x / 65536 % 256 < 256 := Nat.mod_lt _ (by decide)
  have h1 : bits x / 256 % 256 < 256 := Nat.mod_lt _ (by decide)
  have h0 : bits x % 256 < 256 := Nat.mod_lt _ (by decide)
  have hb := bits_four_bytes _ _ _ _ h3 h2 h1 h0
  rw [htonl_val_nat, hb]
  generalize bits x / 16777216 % 256 = c3 at h3 ⊢
  generalize bits x / 65536 % 256 = c2 at h2 ⊢
  generalize bits x / 256 % 256 = c1 at h1 ⊢
  generalize bits x % 256 = c0 at h0 ⊢
  refine ⟨hty, rfl, ?_, ?_, ?_, ?_⟩ <;> omega

/-- C4: for every argument `x`, negative values included, `htons(x)` is a value that is
its own bit pattern with nothing set above bit 15, and its two bytes are the two low
bytes of `x` exchanged: bits 0-7 are bits 8-15 of `x` and bits 8-15 are bits 0-7 of
`x`. -/
theorem htons_exchanges_bytes (x : Int) :
    (htons x).val = (bits (htons x).val : Int) ∧
    bits (htons x).val % 256 = bits x / 256 % 256 ∧
    bits (htons x).val / 256 % 256 = bits x % 256 ∧
    bits (htons x).val / 65536 = 0 := by
  have h1 : bits x / 256 % 256 < 256 := Nat.mod_lt _ (by decide)
  have h0 : bits x % 256 < 256 := Nat.mod_lt _ (by decide)
  have hb := bits_two_bytes _ _ h1 h0
  rw [htons_val_nat, hb]
  generalize bits x / 256 % 256 = c1 at h1 ⊢
  generalize bits x % 256 = c0 at h0 ⊢
  refine ⟨rfl, ?_, ?_, ?_⟩ <;> omega

/-- C5, as stated, fails at `x = 0x80`: the operand `(int32_t)x & 0x000000ff` is the
`int` 128, and the value of its left shift by 24, 128 * 2^24 = 2^31, is larger than
`INT_MAX`, so this step does not stay representable in `int`, the type in which it is
carried out. -/
theorem htonl_shift_exceeds_int_at_128 :
    band (castInt32 128) (hexLit 0x000000ff) = ⟨.int, 128⟩ ∧
    INT_MAX < (band (castInt32 128) (hexLit 0x000000ff)).val * 16777216 ∧
    ¬ ((band (castInt32 128) (hexLit 0x000000ff)).val * 16777216 ≤ INT_MAX) := by
  decide

/-- C5 (amended): for every argument `x`, evaluating `htonl(x)` is defined and cannot
fail.  The three `int` operands are non-negative, the shifts of the two middle operands
stay within `int`, and the left shift by 24 of `(int32_t)x & 0x000000ff` yields a value
that is always representable in `unsigned int`, which is what the language requires of a
left shift of a non-negative `int`; that value is representable in `int` exactly when
the low byte of `x` is below `0x80`.  The checked evaluation returns the value of
`htonl(x)` for every input. -/
theorem htonlChecked_defined (x : Int) :
    (band (castInt32 x) (hexLit 0xff000000)).ty = .uint ∧
    ((band (castInt32 x) (hexLit 0x00ff0000)).ty = .int ∧
      0 ≤ (band (castInt32 x) (hexLit 0x00ff0000)).val) ∧
    ((band (castInt32 x) (hexLit 0x0000ff00)).ty = .int ∧
      0 ≤ (band (castInt32 x) (hexLit 0x0000ff00)).val ∧
      (band (castInt32 x) (hexLit 0x0000ff00)).val * 2 ^ 8 ≤ INT_MAX) ∧
    ((band (castInt32 x) (hexLit 0x000000ff)).ty = .int ∧
      0 ≤ (band (castInt32 x) (hexLit 0x000000ff)).val ∧
      (band (castInt32 x) (hexLit 0x000000ff)).val * 2 ^ 24 ≤ UINT_MAX ∧
      ((band (castInt32 x) (hexLit 0x000000ff)).val * 2 ^ 24 ≤ INT_MAX ↔ x % 256 < 128)) ∧
    htonlChecked x = some (htonl x) := by
  have h2 := byte_range x 65536
  have h1 := byte_range x 256
  have h0 : 0 ≤ x % 256 ∧ x % 256 < 256 := by omega
  rw [band32_b3, band32_b2, band32_b1, band32_b0]
  refine ⟨rfl, ⟨rfl, ?_⟩, ⟨rfl, ?_, ?_⟩, ⟨rfl, ?_, ?_, ?_⟩, htonlChecked_eq x⟩
  · show 0 ≤ x / 65536 % 256 * 65536
    omega
  · show 0 ≤ x / 256 % 256 * 256
    omega
  · show x / 256 % 256 * 256 * 2 ^ 8 ≤ INT_MAX
    unfold INT_MAX
    omega
  · show 0 ≤ x % 256
    omega
  · show x % 256 * 2 ^ 24 ≤ UINT_MAX
    unfold UINT_MAX
    omega
  · show x % 256 * 2 ^ 24 ≤ INT_MAX ↔ x % 256 < 128
    unfold INT_MAX
    constructor <;> intro h <;> omega

/-- C6: for every argument `x`, zero and negative values included, both masked operands
of `htons(x)` are non-negative `int` values, the left shift by 8 of
`(int16_t)x & 0x00ff` stays within `int`, and the checked evaluation succeeds with the
value of `htons(x)`. -/
theorem htonsChecked_defined (x : Int) :
    (band (castInt16 x) (hexLit 0xff00)).ty = .int ∧
    0 ≤ (band (castInt16 x) (hexLit 0xff00)).val ∧
    (band (castInt16 x) (hexLit 0x00ff)).ty = .int ∧
    0 ≤ (band (castInt16 x) (hexLit 0x00ff)).val ∧
    (band (castInt16 x) (hexLit 0x00ff)).val * 2 ^ 8 ≤ INT_MAX ∧
    htonsChecked x = some (htons x) := by
  have h1 := byte_range x 256
  rw [band16_hi, band16_lo]
  refine ⟨rfl, ?_, rfl, ?_, ?_, htonsChecked_eq x⟩
  · show 0 ≤ x / 256 % 256 * 256
    omega
  · show 0 ≤ x % 256
    omega
  · show x % 256 * 2 ^ 8 ≤ INT_MAX
    unfold INT_MAX
    omega

/-- C7: the network-to-host macros are the host-to-network macros of the same width:
`ntohs(x)` is `htons(x)` and `ntohl(x)` is `htonl(x)` for every argument. -/
theorem ntoh_eq_hton (x : Int) : ntohs x = htons x ∧ ntohl x = htonl x :=
  ⟨rfl, rfl⟩

/-- C8: for every argument `x`, negative values included, the value `htons(x)` yields
lies in `[0, 2^16)`: no bit above bit 15 is set. -/
theorem htons_width (x : Int) :
    0 ≤ (htons x).val ∧ (htons x).val < 65536 ∧ bits (htons x).val / 65536 = 0 := by
  have h1 := byte_range x 256
  have hv : 0 ≤ x / 256 % 256 + x % 256 * 256 ∧ x / 256 % 256 + x % 256 * 256 < 65536 := by
    omega
  rw [htons_eq]
  show 0 ≤ x / 256 % 256 + x % 256 * 256 ∧ x / 256 % 256 + x % 256 * 256 < 65536
    ∧ bits (x / 256 % 256 + x % 256 * 256) / 65536 = 0
  generalize x / 256 % 256 + x % 256 * 256 = v at hv ⊢
  refine ⟨hv.1, hv.2, ?_⟩
  unfold bits
  omega

/-- C9: `htonl(0x12345678)` is `0x78563412`, also under the checked evaluation, and the C
comparison with the constant `0x78563412` holds. -/
theorem htonl_0x12345678 :
    htonl 0x12345678 = ⟨.uint, 0x78563412⟩ ∧
    htonlChecked 0x12345678 = some ⟨.uint, 0x78563412⟩ ∧
    ceq (htonl 0x12345678) (hexLit 0x78563412) = true := by
  decide

/-- C10: `htonl(0x00000001)` is `0x01000000`: the highest byte of the result is 1 and the
three lower bytes are zero. -/
theorem htonl_one :
    htonl 0x00000001 = ⟨.uint, 0x01000000⟩ ∧
    htonlChecked 0x00000001 = some ⟨.uint, 0x01000000⟩ ∧
    ceq (htonl 0x00000001) (hexLit 0x01000000) = true ∧
    bits (htonl 0x00000001).val / 16777216 % 256 = 1 ∧
    bits (htonl 0x00000001).val / 65536 % 256 = 0 ∧
    bits (htonl 0x00000001).val / 256 % 256 = 0 ∧
    bits (htonl 0x00000001).val % 256 = 0 := by
  decide

/-- C11: `htons(0x1234)` is `0x3412`, also under the checked evaluation, and the C
comparison with the constant `0x3412` holds. -/
theorem htons_0x1234 :
    htons 0x1234 = ⟨.int, 0x3412⟩ ∧
    htonsChecked 0x1234 = some ⟨.int, 0x3412⟩ ∧
    ceq (htons 0x1234) (hexLit 0x3412) = true := by
  decide

/-- C12: the 16-bit boundary values are unchanged: `htons(0x0000)` is `0x0000`, and
`htons(0xFFFF)`, whose argument becomes -1 under the `(int16_t)` cast, is the `int`
`0xFFFF`; both C comparisons with the constants hold. -/
theorem htons_boundary :
    htons 0x0000 = ⟨.int, 0x0000⟩ ∧
    ceq (htons 0x0000) (hexLit 0x0000) = true ∧
    castInt16 0xFFFF = ⟨.int16, -1⟩ ∧
    htons 0xFFFF = ⟨.int, 0xFFFF⟩ ∧
    ceq (htons 0xFFFF) (hexLit 0xFFFF) = true := by
  decide

theorem htons_mod (A : Int) : htons A = htons (A % 65536) := by
  rw [htons_eq A, htons_eq (A % 65536)]
  refine congrArg (CVal.mk CType.int) ?_
  omega

theorem bits_mod_cast (A : Int) : ((bits A % 65536 : Nat) : Int) = A % 65536 := by
  have h := bits_cast A
  omega

/-- C13: `htons` depends only on the low 16 bits of its argument: for every argument `A`,
`htons(A)` is `htons(A mod 2^16)`, and two arguments whose 32-bit patterns agree on bits
0-15 give the same result. -/
theorem htons_low16 (A B : Int) (h : bits A % 65536 = bits B % 65536) :
    htons A = htons (A % 65536) ∧ htons A = htons ((bits A % 65536 : Nat) : Int) ∧
    htons A = htons B := by
  refine ⟨htons_mod A, ?_, ?_⟩
  · rw [bits_mod_cast]
    exact htons_mod A
  · have hA := bits_mod_cast A
    have hB := bits_mod_cast B
    rw [h, hB] at hA
    rw [htons_mod A, htons_mod B, hA]

/-- Witness for C13: `0x12345678` and `-0x1111A988` (pattern `0xEEEE5678`) agree on bits
0-15. -/
theorem htons_low16_witness :
    bits 0x12345678 % 65536 = bits (-0x1111A988) % 65536 ∧
    htons 0x12345678 = htons (0x12345678 % 65536) ∧
    htons 0x12345678 = htons ((bits 0x12345678 % 65536 : Nat) : Int) ∧
    htons 0x12345678 = htons (-0x1111A988) :=
  ⟨by decide, htons_low16 0x12345678 (-0x1111A988) (by decide)⟩

theorem bits_lt (x : Int) : bits x < 4294967296 := by
  unfold bits
  omega

theorem nat_bytes (n : Nat) (h : n < 4294967296) :
    ∃ c0 c1 c2 c3 : Nat, c0 < 256 ∧ c1 < 256 ∧ c2 < 256 ∧ c3 < 256 ∧
      n = c0 + c1 * 256 + c2 * 65536 + c3 * 16777216 :=
  ⟨n % 256, n / 256 % 256, n / 65536 % 256, n / 16777216, by omega, by omega, by omega,
    by omega, by omega⟩

/-- C14: the 32-bit swap is two 16-bit swaps with the halves exchanged: for every
argument `x` with 32-bit pattern `p`, the unsigned value of `htonl(x)` is
`htons(p mod 2^16) * 2^16 + htons((p div 2^16) mod 2^16)`. -/
theorem htonl_eq_two_htons (x : Int) :
    (htonl x).ty = .uint ∧
    (htonl x).val = (htons ((bits x % 65536 : Nat) : Int)).val * 65536
      + (htons ((bits x / 65536 % 65536 : Nat) : Int)).val := by
  have hty : (htonl x).ty = .uint := by rw [htonl_eq]
  refine ⟨hty, ?_⟩
  rw [htonl_val_nat, htons_eq, htons_eq]
  obtain ⟨c0, c1, c2, c3, h0, h1, h2, h3, hn⟩ := nat_bytes (bits x) (bits_lt x)
  rw [hn]
  have e3 : (c0 + c1 * 256 + c2 * 65536 + c3 * 16777216) / 16777216 % 256 = c3 := by omega
  have e2 : (c0 + c1 * 256 + c2 * 65536 + c3 * 16777216) / 65536 % 256 = c2 := by omega
  have e1 : (c0 + c1 * 256 + c2 * 65536 + c3 * 16777216) / 256 % 256 = c1 := by omega
  have e0 : (c0 + c1 * 256 + c2 * 65536 + c3 * 16777216) % 256 = c0 := by omega
  have elo : (c0 + c1 * 256 + c2 * 65536 + c3 * 16777216) % 65536 = c0 + c1 * 256 := by
    omega
  have ehi : (c0 + c1 * 256 + c2 * 65536 + c3 * 16777216) / 65536 % 65536
      = c2 + c3 * 256 := by
    omega
  rw [e3, e2, e1, e0, elo, ehi]
  show ((c3 + c2 * 256 + c1 * 65536 + c0 * 16777216 : Nat) : Int)
    = (((c0 + c1 * 256 : Nat) : Int) / 256 % 256 + ((c0 + c1 * 256 : Nat) : Int) % 256 * 256)
        * 65536
      + (((c2 + c3 * 256 : Nat) : Int) / 256 % 256 + ((c2 + c3 * 256 : Nat) : Int) % 256 * 256)
  omega

/-- C15: `htons` is a bijection from the 16-bit signed integers `[-32768, 32767]` onto
`[0, 65535]`: it maps the first set into the second, distinct inputs give distinct
results, and every value of the second set is the result of some input. -/
theorem htons_bijOn :
    Set.BijOn (fun x : Int => (htons x).val) (Set.Icc (-32768) 32767) (Set.Icc 0 65535) := by
  refine ⟨?_, ?_, ?_⟩
  · intro x _
    have h1 := byte_range x 256
    simp only [htons_eq, Set.mem_Icc]
    omega
  · intro x hx y hy hxy
    simp only [htons_eq, Set.mem_Icc] at hx hy hxy
    have hx1 := byte_range x 256
    have hy1 := byte_range y 256
    have hx0 : x / 256 % 256 = y / 256 % 256 := by omega
    have hy0 : x % 256 = y % 256 := by omega
    omega
  · intro v hv
    simp only [Set.mem_Icc] at hv
    obtain ⟨c1, c0, h1, h0, rfl⟩ : ∃ c1 c0 : Int, (0 ≤ c1 ∧ c1 < 256) ∧ (0 ≤ c0 ∧ c0 < 256)
        ∧ v = c1 * 256 + c0 :=
      ⟨v / 256, v % 256, by omega, by omega, by omega⟩
    by_cases hlt : c0 < 128
    · have hx : wrapInt16 (c1 + c0 * 256) = c1 + c0 * 256 := by
        simp only [wrapInt16]
        omega
      have d1 : (c1 + c0 * 256) / 256 = c0 := by omega
      have d2 : c0 % 256 = c0 := by omega
      have m1 : (c1 + c0 * 256) % 256 = c1 := by omega
      refine ⟨wrapInt16 (c1 + c0 * 256), ?_, ?_⟩
      · rw [hx, Set.mem_Icc]
        clear hx
        omega
      · show (htons (wrapInt16 (c1 + c0 * 256))).val = c1 * 256 + c0
        rw [hx, htons_eq]
        show (c1 + c0 * 256) / 256 % 256 + (c1 + c0 * 256) % 256 * 256 = c1 * 256 + c0
        rw [d1, d2, m1]
        omega
    · have hx : wrapInt16 (c1 + c0 * 256) = c1 + c0 * 256 - 65536 := by
        simp only [wrapInt16]
        omega
      have d1 : (c1 + c0 * 256 - 65536) / 256 = c0 - 256 := by omega
      have d2 : (c0 - 256) % 256 = c0 := by omega
      have m1 : (c1 + c0 * 256 - 65536) % 256 = c1 := by omega
      refine ⟨wrapInt16 (c1 + c0 * 256), ?_, ?_⟩
      · rw [hx, Set.mem_Icc]
        clear hx
        omega
      · show (htons (wrapInt16 (c1 + c0 * 256))).val = c1 * 256 + c0
        rw [hx, htons_eq]
        show (c1 + c0 * 256 - 65536) / 256 % 256 + (c1 + c0 * 256 - 65536) % 256 * 256
          = c1 * 256 + c0
        rw [d1, d2, m1]
        omega

theorem and_byte (n m k : Nat) :
    (n &&& m) / 2 ^ k % 2 ^ 8 = (n / 2 ^ k % 2 ^ 8) &&& (m / 2 ^ k % 2 ^ 8) := by
  apply Nat.eq_of_testBit_eq
  intro i
  simp only [← Nat.shiftRight_eq_div_pow, Nat.testBit_mod_two_pow, Nat.testBit_shiftRight,
    Nat.testBit_and]
  cases decide (i < 8) <;> simp

theorem and_split (a2 a1 b2 b1 : Nat) (ha : a1 < 256) (hb : b1 < 256) :
    (a2 * 256 + a1) &&& (b2 * 256 + b1) = (a2 &&& b2) * 256 + (a1 &&& b1) := by
  have ha8 : a1 < 2 ^ 8 := by omega
  have hb8 : b1 < 2 ^ 8 := by omega
  have hc8 : a1 &&& b1 < 2 ^ 8 := Nat.and_lt_two_pow _ hb8
  have e : ∀ x y : Nat, x * 256 + y = 2 ^ 8 * x + y := by intro x y; omega
  rw [e, e, e]
  apply Nat.eq_of_testBit_eq
  intro j
  rw [Nat.testBit_and, Nat.testBit_mul_pow_two_add _ ha8, Nat.testBit_mul_pow_two_add _ hb8,
    Nat.testBit_mul_pow_two_add _ hc8]
  by_cases h : j < 8 <;> simp [h]

theorem and_four_bytes (c3 c2 c1 c0 d3 d2 d1 d0 : Nat)
    (hc3 : c3 < 256) (hc2 : c2 < 256) (hc1 : c1 < 256)
    (hd3 : d3 < 256) (hd2 : d2 < 256) (hd1 : d1 < 256) :
    (c3 + c2 * 256 + c1 * 65536 + c0 * 16777216) &&& (d3 + d2 * 256 + d1 * 65536 + d0 * 16777216)
      = (c3 &&& d3) + (c2 &&& d2) * 256 + (c1 &&& d1) * 65536 + (c0 &&& d0) * 16777216 := by
  have e : ∀ x3 x2 x1 x0 : Nat, x3 + x2 * 256 + x1 * 65536 + x0 * 16777216
      = ((x0 * 256 + x1) * 256 + x2) * 256 + x3 := by
    intro x3 x2 x1 x0; omega
  rw [e c3, e d3, e (c3 &&& d3), and_split _ _ _ _ hc3 hd3, and_split _ _ _ _ hc2 hd2,
    and_split _ _ _ _ hc1 hd1]

theorem rev_and (n m : Nat) :
    (n &&& m) / 16777216 % 256 + (n &&& m) / 65536 % 256 * 256
        + (n &&& m) / 256 % 256 * 65536 + (n &&& m) % 256 * 16777216
      = (n / 16777216 % 256 + n / 65536 % 256 * 256 + n / 256 % 256 * 65536
          + n % 256 * 16777216)
        &&& (m / 16777216 % 256 + m / 65536 % 256 * 256 + m / 256 % 256 * 65536
          + m % 256 * 16777216) := by
  have h3 := and_byte n m 24
  have h2 := and_byte n m 16
  have h1 := and_byte n m 8
  have h0 := and_byte n m 0
  norm_num at h3 h2 h1 h0
  rw [and_four_bytes _ _ _ _ _ _ _ _ (Nat.mod_lt _ (by decide)) (Nat.mod_lt _ (by decide))
    (Nat.mod_lt _ (by decide)) (Nat.mod_lt _ (by decide)) (Nat.mod_lt _ (by decide))
    (Nat.mod_lt _ (by decide)), h3, h2, h1, h0]

theorem htonl_cval_nat (x : Int) :
    htonl x = ⟨.uint, ((bits x / 16777216 % 256 + bits x / 65536 % 256 * 256
      + bits x / 256 % 256 * 65536 + bits x % 256 * 16777216 : Nat) : Int)⟩ := by
  have h := htonl_val_nat x
  rw [htonl_eq] at h ⊢
  exact congrArg (CVal.mk CType.uint) h

theorem rev_lt (n : Nat) :
    n / 16777216 % 256 + n / 65536 % 256 * 256 + n / 256 % 256 * 65536 + n % 256 * 16777216
      < 4294967296 := by
  omega

theorem htonl_band (a m : Int) :
    htonl (band (castInt32 a) (castInt32 m)).val = band (htonl a) (htonl m) := by
  have hlt : bits a &&& bits m < 4294967296 := by
    have := Nat.and_lt_two_pow (bits a) (show bits m < 2 ^ 32 from bits_lt m)
    omega
  have hb : bits (band (castInt32 a) (castInt32 m)).val = bits a &&& bits m := by
    rw [castInt32, castInt32, band_int _ (by decide), bits_wrapInt32, bits_wrapInt32]
    rw [bits_wrapInt32, bits_lit _ hlt]
  rw [htonl_cval_nat, hb, htonl_cval_nat a, htonl_cval_nat m, band_uint,
    bits_lit _ (rev_lt _), bits_lit _ (rev_lt _), rev_and]
  refine congrArg (CVal.mk CType.uint) ?_
  have hr := Nat.and_lt_two_pow
    (bits a / 16777216 % 256 + bits a / 65536 % 256 * 256 + bits a / 256 % 256 * 65536
      + bits a % 256 * 16777216)
    (show bits m / 16777216 % 256 + bits m / 65536 % 256 * 256 + bits m / 256 % 256 * 65536
      + bits m % 256 * 16777216 < 2 ^ 32 from rev_lt _)
  unfold wrapUInt32
  omega

/-- C16: `htonl` commutes with bitwise AND: for all 32-bit integers `a` and `m`,
`htonl(a & m)` is `htonl(a) & htonl(m)`, both being the same `unsigned int`, so the C
comparison of the two holds. -/
theorem htonl_and (a m : Int)
    (ha : -2147483648 ≤ a ∧ a ≤ 2147483647) (hm : -2147483648 ≤ m ∧ m ≤ 2147483647) :
    htonl (band ⟨.int, a⟩ ⟨.int, m⟩).val = band (htonl a) (htonl m) ∧
    ceq (htonl (band ⟨.int, a⟩ ⟨.int, m⟩).val) (band (htonl a) (htonl m)) = true := by
  have ea : (⟨.int, a⟩ : CVal) = castInt32 a := by
    refine congrArg (CVal.mk CType.int) ?_
    simp only [wrapInt32]
    omega
  have em : (⟨.int, m⟩ : CVal) = castInt32 m := by
    refine congrArg (CVal.mk CType.int) ?_
    simp only [wrapInt32]
    omega
  rw [ea, em, htonl_band]
  refine ⟨rfl, ?_⟩
  simp [ceq]

/-- Witness for C16 at `a = -0x12345678` and the mask `m = 0x00ffff00`. -/
theorem htonl_and_witness :
    ((-2147483648 : Int) ≤ -0x12345678 ∧ (-0x12345678 : Int) ≤ 2147483647) ∧
    ((-2147483648 : Int) ≤ 0x00ffff00 ∧ (0x00ffff00 : Int) ≤ 2147483647) ∧
    htonl (band ⟨.int, -0x12345678⟩ ⟨.int, 0x00ffff00⟩).val
      = band (htonl (-0x12345678)) (htonl 0x00ffff00) ∧
    ceq (htonl (band ⟨.int, -0x12345678⟩ ⟨.int, 0x00ffff00⟩).val)
      (band (htonl (-0x12345678)) (htonl 0x00ffff00)) = true :=
  ⟨by decide, by decide, htonl_and (-0x12345678) 0x00ffff00 (by decide) (by decide)⟩

theorem htons_fixed_iff (x : Int) (h0 : 0 ≤ x) (h1 : x ≤ 65535) :
    (htons x).val = x ↔ x / 256 % 256 = x % 256 := by
  rw [htons_eq]
  show x / 256 % 256 + x % 256 * 256 = x ↔ x / 256 % 256 = x % 256
  have hd : x / 256 % 256 = x / 256 := by omega
  rw [hd]
  constructor <;> intro h <;> omega

theorem htons_fixed_set :
    (Finset.range 65536).filter (fun n : Nat => (htons (n : Int)).val = (n : Int))
      = (Finset.range 256).image (fun b : Nat => 257 * b) := by
  ext n
  simp only [Finset.mem_filter, Finset.mem_range, Finset.mem_image]
  constructor
  · rintro ⟨hn, hfix⟩
    have h := (htons_fixed_iff (n : Int) (by omega) (by omega)).mp hfix
    refine ⟨n % 256, Nat.mod_lt _ (by decide), ?_⟩
    omega
  · rintro ⟨b, hb, rfl⟩
    refine ⟨by omega, ?_⟩
    refine (htons_fixed_iff ((257 * b : Nat) : Int) (by omega) (by omega)).mpr ?_
    have hd : ((257 * b : Nat) : Int) / 256 = b := by omega
    have hm : ((257 * b : Nat) : Int) % 256 = b := by omega
    rw [hd, hm]
    omega

/-- C17: for every `x` in `[0, 65535]`, `htons(x)` equals `x` exactly when bits 8-15 of
`x` equal bits 0-7 of `x`; there are exactly 256 such values, and `0x0000` and `0xFFFF`
are among them. -/
theorem htons_fixed_points :
    (∀ x : Int, 0 ≤ x → x ≤ 65535 →
      (((htons x).val = x ↔ x / 256 % 256 = x % 256) ∧
       (ceq (htons x) ⟨.int, x⟩ = true ↔ bits x / 256 % 256 = bits x % 256))) ∧
    ((Finset.range 65536).filter (fun n : Nat => (htons (n : Int)).val = (n : Int))).card
      = 256 ∧
    (htons 0x0000).val = 0x0000 ∧ (htons 0xFFFF).val = 0xFFFF := by
  refine ⟨?_, ?_, by decide, by decide⟩
  · intro x h0 h1
    have hfix := htons_fixed_iff x h0 h1
    refine ⟨hfix, ?_⟩
    have hb : (bits x : Int) = x % 4294967296 := bits_cast x
    have e1 := byte1_of_bits x (bits x) hb
    have e0 := byte0_of_bits x (bits x) hb
    have hc : ceq (htons x) ⟨.int, x⟩ = true ↔ (htons x).val = x := by
      have hr := byte_range x 256
      rw [htons_eq]
      simp only [ceq, promote, commonType, convert, wrapInt32, decide_eq_true_eq]
      simp only [reduceCtorEq, or_self, if_false]
      constructor <;> intro h <;> omega
    rw [hc, hfix, ← e1, ← e0]
    exact Nat.cast_inj
  · rw [htons_fixed_set, Finset.card_image_of_injective, Finset.card_range]
    intro a b hab
    simp only at hab
    omega

/-- Witness for C17 at the fixed point `x = 0x1212`. -/
theorem htons_fixed_points_witness :
    ((0 : Int) ≤ 0x1212 ∧ (0x1212 : Int) ≤ 65535) ∧
    (((htons 0x1212).val = 0x1212 ↔ (0x1212 : Int) / 256 % 256 = 0x1212 % 256) ∧
     (ceq (htons 0x1212) ⟨.int, 0x1212⟩ = true
        ↔ bits 0x1212 / 256 % 256 = bits 0x1212 % 256)) :=
  ⟨by decide, htons_fixed_points.1 0x1212 (by decide) (by decide)⟩

end ByteOrder
